import Mathlib

/-!
Verification development for the `moon_gamepad` native backend
(`src/native/backend.c`, `src/native/backend.h`).

The C code is shallowly embedded: machine integers become `Nat`/`Int`,
IEEE-754 doubles become `ℚ` (every theorem proved about a `ℚ`-valued
embedding of a double computation is stated only at inputs where the C
double computation is exact, or concerns the integer branch structure of
the function), arrays become `List`s, and the hardware side effects of the
force-feedback controller are made explicit as command lists.
-/

namespace MoonGamepad

/-- Event record `moon_gamepad_event_t` from `backend.h`: a 32-byte plain
record `{tag, id, code, pad, value, time_ms}`.  `calloc` zero-initialises
records, which the derived `Inhabited` default (all fields zero) mirrors. -/
structure MEvent where
  tag : Nat
  id : Nat
  code : Nat
  pad : Nat
  value : ℚ
  time_ms : Int
deriving Repr, DecidableEq, Inhabited

/-- Ring-buffer state `moon_gamepad_queue_t` from `backend.c`:
`buf`, `cap`, `head`, `tail`, `len`.  The buffer array is a list whose
length equals `cap` whenever the queue was built by `queue_init`. -/
structure MQueue where
  buf : List MEvent
  cap : Nat
  head : Nat
  tail : Nat
  len : Nat
deriving Repr, DecidableEq

/-- `queue_init` (backend.c lines 122-132): `calloc` a zeroed buffer of
`cap` records and clear `head`, `tail`, `len`. -/
def queue_init (cap : Nat) : MQueue :=
  { buf := List.replicate cap default, cap := cap, head := 0, tail := 0, len := 0 }

/-- `queue_push` (backend.c lines 189-208): no-op when the buffer is
absent (`cap = 0`); when full, first drop the oldest record by advancing
`head`, then store at `tail` and advance it.  Never fails. -/
def queue_push (q : MQueue) (ev : MEvent) : MQueue :=
  if q.cap = 0 then q
  else
    let q1 := if q.len = q.cap then
        { q with head := (q.head + 1) % q.cap, len := q.len - 1 }
      else q
    { q1 with buf := q1.buf.set q1.tail ev, tail := (q1.tail + 1) % q1.cap,
              len := q1.len + 1 }

/-- `queue_pop` (backend.c lines 210-230): returns no record when the
buffer is absent or empty, otherwise returns the record at `head` and
advances `head`.  The C out-parameter plus `int` flag becomes an
`Option`. -/
def queue_pop (q : MQueue) : Option MEvent × MQueue :=
  if q.cap = 0 then (none, q)
  else if q.len = 0 then (none, q)
  else (some (q.buf.getD q.head default),
        { q with head := (q.head + 1) % q.cap, len := q.len - 1 })

/-- Ring-buffer invariant: the stored-buffer length matches `cap`, `len`
never exceeds `cap`, `head` and `tail` are in range, and `tail` sits
`len` slots (mod `cap`) after `head`. -/
def queue_inv (q : MQueue) : Prop :=
  q.buf.length = q.cap ∧ q.len ≤ q.cap ∧ q.head < q.cap ∧ q.tail < q.cap ∧
    q.tail = (q.head + q.len) % q.cap

/-- Abstraction of the ring buffer to the list of queued records, oldest
first. -/
def queue_list (q : MQueue) : List MEvent :=
  (List.range q.len).map (fun i => q.buf.getD ((q.head + i) % q.cap) default)

/-- The last `n` elements of a list. -/
def lastN (n : Nat) (l : List α) : List α := l.drop (l.length - n)

/-- `es.foldl queue_push`: pushing a whole list of records in order. -/
def queue_push_all (q : MQueue) (es : List MEvent) : MQueue :=
  es.foldl queue_push q

/-- Draining the queue with repeated `queue_pop`, with explicit fuel. -/
def queue_drain_fuel : Nat → MQueue → List MEvent
  | 0, _ => []
  | Nat.succ n, q =>
    match queue_pop q with
    | (none, _) => []
    | (some e, q2) => e :: queue_drain_fuel n q2

/-- Draining the queue with repeated `queue_pop` until it reports empty. -/
def queue_drain (q : MQueue) : List MEvent := queue_drain_fuel q.len q

theorem queue_list_length (q : MQueue) : (queue_list q).length = q.len := by
  simp [queue_list]

theorem queue_inv_init (cap : Nat) (hcap : 0 < cap) : queue_inv (queue_init cap) := by
  refine ⟨?_, ?_, ?_, ?_, ?_⟩ <;> simp [queue_init, hcap]

theorem queue_list_init (cap : Nat) : queue_list (queue_init cap) = [] := by
  simp [queue_list, queue_init]

private theorem mod_add_ne_self {cap head k : Nat} (hh : head < cap) (hk0 : 0 < k)
    (hk : k < cap) : (head + k) % cap ≠ head := by
  intro h
  have h1 : head % cap = (head + k) % cap := by
    rw [Nat.mod_eq_of_lt hh, h]
  have h2 : cap ∣ (head + k) - head := (Nat.modEq_iff_dvd' (Nat.le_add_right _ _)).mp h1
  have h3 : (head + k) - head = k := by omega
  rw [h3] at h2
  have := Nat.le_of_dvd hk0 h2
  omega

theorem queue_push_full_eq (q : MQueue) (ev : MEvent) (hcap : q.cap ≠ 0)
    (hfull : q.len = q.cap) :
    queue_push q ev =
      { buf := q.buf.set q.tail ev, cap := q.cap, head := (q.head + 1) % q.cap,
        tail := (q.tail + 1) % q.cap, len := q.cap } := by
  have hl : q.len - 1 + 1 = q.cap := by
    have := Nat.pos_of_ne_zero hcap
    omega
  simp only [queue_push, if_neg hcap, if_pos hfull, hl]

theorem queue_push_not_full_eq (q : MQueue) (ev : MEvent) (hcap : q.cap ≠ 0)
    (hfull : q.len ≠ q.cap) :
    queue_push q ev =
      { q with buf := q.buf.set q.tail ev, tail := (q.tail + 1) % q.cap,
               len := q.len + 1 } := by
  simp only [queue_push, if_neg hcap, if_neg hfull]

theorem queue_inv_push (q : MQueue) (ev : MEvent) (h : queue_inv q) :
    queue_inv (queue_push q ev) := by
  obtain ⟨hbuf, hlen, hhead, htail, heq⟩ := h
  have hcap : 0 < q.cap := Nat.lt_of_le_of_lt (Nat.zero_le _) hhead
  by_cases hfull : q.len = q.cap
  · have htl : q.tail = q.head := by
      rw [heq, hfull, Nat.add_mod_right, Nat.mod_eq_of_lt hhead]
    rw [queue_push_full_eq q ev (Nat.ne_of_gt hcap) hfull]
    refine ⟨by simpa using hbuf, Nat.le_refl _, Nat.mod_lt _ hcap, Nat.mod_lt _ hcap, ?_⟩
    show (q.tail + 1) % q.cap = ((q.head + 1) % q.cap + q.cap) % q.cap
    rw [htl, Nat.mod_add_mod, Nat.add_mod_right]
  · rw [queue_push_not_full_eq q ev (Nat.ne_of_gt hcap) hfull]
    refine ⟨by simpa using hbuf, ?_, hhead, Nat.mod_lt _ hcap, ?_⟩
    · show q.len + 1 ≤ q.cap
      omega
    · show (q.tail + 1) % q.cap = (q.head + (q.len + 1)) % q.cap
      rw [heq, Nat.mod_add_mod, Nat.add_assoc]

private theorem getD_set_self (l : List MEvent) (i : Nat) (a d : MEvent)
    (h : i < l.length) : (l.set i a).getD i d = a := by
  rw [List.getD_eq_getElem _ _ (by simpa using h), List.getElem_set, if_pos rfl]

private theorem getD_set_ne (l : List MEvent) (i j : Nat) (a d : MEvent)
    (hne : i ≠ j) : (l.set i a).getD j d = l.getD j d := by
  by_cases hj : j < l.length
  · rw [List.getD_eq_getElem _ _ (by simpa using hj), List.getD_eq_getElem _ _ hj,
      List.getElem_set, if_neg hne]
  · rw [List.getD_eq_default _ _ (by simpa using Nat.le_of_not_lt hj),
      List.getD_eq_default _ _ (Nat.le_of_not_lt hj)]

private theorem mod_offset_ne {cap head i j : Nat} (hij : i < j)
    (hj : j < cap) : (head + i) % cap ≠ (head + j) % cap := by
  intro h
  have h1 : Nat.ModEq cap (head + i) (head + j) := h
  have h2 : Nat.ModEq cap i j := Nat.ModEq.add_left_cancel' head h1
  have h3 : cap ∣ j - i := (Nat.modEq_iff_dvd' (Nat.le_of_lt hij)).mp h2
  have h4 := Nat.le_of_dvd (by omega) h3
  omega

theorem queue_list_push (q : MQueue) (ev : MEvent) (h : queue_inv q) :
    queue_list (queue_push q ev) =
      (if q.len = q.cap then (queue_list q).drop 1 else queue_list q) ++ [ev] := by
  obtain ⟨hbuf, hlen, hhead, htail, heq⟩ := h
  have hcap : 0 < q.cap := Nat.lt_of_le_of_lt (Nat.zero_le _) hhead
  by_cases hfull : q.len = q.cap
  · have htl : q.tail = q.head := by
      rw [heq, hfull, Nat.add_mod_right, Nat.mod_eq_of_lt hhead]
    rw [queue_push_full_eq q ev (Nat.ne_of_gt hcap) hfull, if_pos hfull]
    apply List.ext_getElem
    · simp [queue_list, hfull]
      omega
    intro i h1 h2
    have hi : i < q.cap := by simpa [queue_list] using h1
    simp only [queue_list] at h2 ⊢
    rw [List.getElem_map, List.getElem_range]
    rw [Nat.mod_add_mod]
    by_cases hlast : i = q.cap - 1
    · have hpos : (q.head + 1 + i) % q.cap = q.head := by
        have : q.head + 1 + i = q.head + q.cap := by omega
        rw [this, Nat.add_mod_right, Nat.mod_eq_of_lt hhead]
      rw [hpos, htl, getD_set_self _ _ _ _ (by omega)]
      rw [List.getElem_append_right (by simp [hfull]; omega)]
      simp [hfull, hlast]
    · have hne : q.tail ≠ (q.head + 1 + i) % q.cap := by
        rw [htl]
        have : q.head + 1 + i = q.head + (1 + i) := by omega
        rw [this]
        exact fun hc => mod_add_ne_self hhead (by omega) (by omega) hc.symm
      rw [getD_set_ne _ _ _ _ _ hne]
      rw [List.getElem_append_left (by simp [hfull]; omega)]
      rw [List.getElem_drop, List.getElem_map, List.getElem_range]
      have hadd : q.head + (1 + i) = q.head + 1 + i := by omega
      rw [hadd]
  · rw [queue_push_not_full_eq q ev (Nat.ne_of_gt hcap) hfull, if_neg hfull]
    apply List.ext_getElem
    · simp [queue_list]
    intro i h1 h2
    have hi : i < q.len + 1 := by simpa [queue_list] using h1
    simp only [queue_list] at h2 ⊢
    rw [List.getElem_map, List.getElem_range]
    by_cases hlast : i = q.len
    · have hpos : (q.head + i) % q.cap = q.tail := by rw [hlast, heq]
      rw [hpos, getD_set_self _ _ _ _ (by omega)]
      rw [List.getElem_append_right (by simp; omega)]
      simp
    · have hne : q.tail ≠ (q.head + i) % q.cap := by
        rw [heq]
        exact fun hc => mod_offset_ne (by omega) (by omega) hc.symm
      rw [getD_set_ne _ _ _ _ _ hne]
      rw [List.getElem_append_left (by simp; omega)]
      rw [List.getElem_map, List.getElem_range]

theorem queue_pop_of_empty (q : MQueue) (h : q.len = 0) : queue_pop q = (none, q) := by
  by_cases hcap : q.cap = 0 <;> simp [queue_pop, hcap, h]

theorem queue_pop_of_nonempty (q : MQueue) (h : queue_inv q) (hl : q.len ≠ 0) :
    queue_pop q =
      (some (q.buf.getD q.head default),
       { q with head := (q.head + 1) % q.cap, len := q.len - 1 }) ∧
    queue_inv { q with head := (q.head + 1) % q.cap, len := q.len - 1 } ∧
    queue_list q =
      q.buf.getD q.head default ::
        queue_list { q with head := (q.head + 1) % q.cap, len := q.len - 1 } := by
  obtain ⟨hbuf, hlen, hhead, htail, heq⟩ := h
  have hcap : 0 < q.cap := Nat.lt_of_le_of_lt (Nat.zero_le _) hhead
  refine ⟨by simp [queue_pop, Nat.ne_of_gt hcap, hl],
    ⟨hbuf, ?_, Nat.mod_lt _ hcap, htail, ?_⟩, ?_⟩
  · show q.len - 1 ≤ q.cap
    omega
  · show q.tail = ((q.head + 1) % q.cap + (q.len - 1)) % q.cap
    rw [Nat.mod_add_mod, heq]
    congr 1
    omega
  · obtain ⟨k, hk⟩ : ∃ k, q.len = k + 1 := ⟨q.len - 1, by omega⟩
    simp only [queue_list, hk, Nat.add_sub_cancel]
    rw [List.range_succ_eq_map, List.map_cons, List.map_map]
    congr 1
    · rw [Nat.add_zero, Nat.mod_eq_of_lt hhead]
    · apply List.map_congr_left
      intro i _
      simp only [Function.comp_apply, Nat.succ_eq_add_one]
      rw [Nat.mod_add_mod]
      have hadd : (q.head + 1) + i = q.head + (i + 1) := by omega
      rw [hadd]

theorem queue_drain_fuel_eq (n : Nat) :
    ∀ q : MQueue, queue_inv q → q.len ≤ n → queue_drain_fuel n q = queue_list q := by
  induction n with
  | zero =>
    intro q _ hl
    have h0 : q.len = 0 := by omega
    simp [queue_drain_fuel, queue_list, h0]
  | succ n ih =>
    intro q hq hl
    by_cases h0 : q.len = 0
    · simp [queue_drain_fuel, queue_pop_of_empty q h0, queue_list, h0]
    · obtain ⟨hpop, hinv, hcons⟩ := queue_pop_of_nonempty q hq h0
      simp only [queue_drain_fuel, hpop]
      rw [ih _ hinv (by simp; omega), hcons]

theorem queue_drain_eq (q : MQueue) (h : queue_inv q) : queue_drain q = queue_list q :=
  queue_drain_fuel_eq q.len q h (Nat.le_refl _)

theorem queue_push_cap (q : MQueue) (ev : MEvent) : (queue_push q ev).cap = q.cap := by
  by_cases h : q.cap = 0
  · simp [queue_push, h]
  · by_cases hf : q.len = q.cap
    · rw [queue_push_full_eq q ev h hf]
    · rw [queue_push_not_full_eq q ev h hf]

private theorem lastN_of_le {n : Nat} {l : List MEvent} (h : l.length ≤ n) :
    lastN n l = l := by
  have : l.length - n = 0 := by omega
  simp [lastN, this]

private theorem lastN_cons {n : Nat} (x : MEvent) {l : List MEvent} (h : n ≤ l.length) :
    lastN n (x :: l) = lastN n l := by
  have h1 : (x :: l).length - n = (l.length - n) + 1 := by simp; omega
  simp only [lastN, h1, List.drop_succ_cons]

theorem queue_push_all_spec (es : List MEvent) :
    ∀ q : MQueue, queue_inv q →
      queue_inv (queue_push_all q es) ∧ (queue_push_all q es).cap = q.cap ∧
      queue_list (queue_push_all q es) = lastN q.cap (queue_list q ++ es) := by
  induction es with
  | nil =>
    intro q hq
    have hlen : (queue_list q).length ≤ q.cap := by
      rw [queue_list_length]
      exact hq.2.1
    refine ⟨hq, rfl, ?_⟩
    simp only [queue_push_all, List.foldl_nil, List.append_nil]
    rw [lastN_of_le hlen]
  | cons e es ih =>
    intro q hq
    have hpush := queue_inv_push q e hq
    have hstep : queue_push_all q (e :: es) = queue_push_all (queue_push q e) es := rfl
    obtain ⟨h1, h2, h3⟩ := ih (queue_push q e) hpush
    refine ⟨by rw [hstep]; exact h1, by rw [hstep, h2, queue_push_cap], ?_⟩
    rw [hstep, h3, queue_push_cap, queue_list_push q e hq]
    by_cases hf : q.len = q.cap
    · rw [if_pos hf]
      have hcap : 0 < q.cap := Nat.lt_of_le_of_lt (Nat.zero_le _) hq.2.2.1
      obtain ⟨x, L2, hL⟩ : ∃ x L2, queue_list q = x :: L2 := by
        cases hLq : queue_list q with
        | nil =>
          have hc := queue_list_length q
          rw [hLq] at hc
          simp at hc
          omega
        | cons x L2 => exact ⟨x, L2, rfl⟩
      have hL2 : L2.length = q.cap - 1 := by
        have hc := queue_list_length q
        rw [hL] at hc
        simp at hc
        omega
      rw [hL]
      simp only [List.drop_succ_cons, List.drop_zero, List.cons_append]
      rw [List.append_assoc, List.singleton_append]
      rw [lastN_cons x (by simp [hL2]; omega)]
    · rw [if_neg hf]
      rw [List.append_assoc, List.singleton_append]

/-- C1: the event queue is created with capacity 1024
(`moon_gamepad_backend_new`), and `queue_push` never fails: when full it
evicts the oldest record first.  Pushing any sequence of 1025 records
into the fresh queue and draining with `queue_pop` yields exactly 1024
records, namely all records after the first in push order; the first
pushed record is absent whenever it does not also occur later in the
sequence. -/
theorem queue_overflow_drop_oldest (es : List MEvent) (h : es.length = 1025) :
    queue_drain (queue_push_all (queue_init 1024) es) = es.drop 1 ∧
    (queue_drain (queue_push_all (queue_init 1024) es)).length = 1024 ∧
    ∀ e0, es.head? = some e0 → e0 ∉ es.drop 1 →
      e0 ∉ queue_drain (queue_push_all (queue_init 1024) es) := by
  have hinv0 : queue_inv (queue_init 1024) := queue_inv_init 1024 (by norm_num)
  obtain ⟨hinv, _, hlist⟩ := queue_push_all_spec es _ hinv0
  have hmain : queue_drain (queue_push_all (queue_init 1024) es) = es.drop 1 := by
    rw [queue_drain_eq _ hinv, hlist, queue_list_init]
    show lastN 1024 es = es.drop 1
    simp [lastN, h]
  refine ⟨hmain, by rw [hmain]; simp [h], fun e0 _ hmem => by rw [hmain]; exact hmem⟩

/-- Witness for C1 at a concrete sequence of 1025 distinct records. -/
theorem queue_overflow_drop_oldest_witness :
    ((List.range 1025).map fun i =>
        ({ tag := 4, id := 0, code := i, pad := 0, value := 0, time_ms := 0 } :
          MEvent)).length = 1025 ∧
    queue_drain (queue_push_all (queue_init 1024)
        ((List.range 1025).map fun i =>
          ({ tag := 4, id := 0, code := i, pad := 0, value := 0, time_ms := 0 } :
            MEvent))) =
      ((List.range 1025).map fun i =>
        ({ tag := 4, id := 0, code := i, pad := 0, value := 0, time_ms := 0 } :
          MEvent)).drop 1 :=
  ⟨by simp, (queue_overflow_drop_oldest _ (by simp)).1⟩

/-- C10: `queue_init` (with positive capacity) establishes, and
`queue_push` / `queue_pop` preserve, the ring-buffer invariant
`len ≤ cap ∧ head < cap ∧ tail < cap ∧ tail = (head + len) % cap`
(together with the stored-buffer length staying `cap`); and `queue_pop`
on an empty queue returns the empty result leaving `head`, `tail`, `len`
and the buffer contents unchanged. -/
theorem queue_ops_preserve_invariant :
    (∀ cap : Nat, 0 < cap → queue_inv (queue_init cap)) ∧
    (∀ (q : MQueue) (ev : MEvent), queue_inv q → queue_inv (queue_push q ev)) ∧
    (∀ q : MQueue, queue_inv q → queue_inv (queue_pop q).2) ∧
    (∀ q : MQueue, q.len = 0 → queue_pop q = (none, q)) := by
  refine ⟨queue_inv_init, queue_inv_push, ?_, queue_pop_of_empty⟩
  intro q hq
  by_cases h0 : q.len = 0
  · rw [queue_pop_of_empty q h0]
    exact hq
  · obtain ⟨hpop, hinv, _⟩ := queue_pop_of_nonempty q hq h0
    rw [hpop]
    exact hinv

/-- Witness for C10 at a concrete queue of capacity 4. -/
theorem queue_ops_preserve_invariant_witness :
    queue_inv (queue_init 4) ∧ queue_pop (queue_init 4) = (none, queue_init 4) :=
  ⟨queue_ops_preserve_invariant.1 4 (by decide),
   queue_ops_preserve_invariant.2.2.2 (queue_init 4) rfl⟩

/-- `clamp_f64` (backend.c lines 618-626), with doubles embedded as `ℚ`. -/
def clamp_f64 (v lo hi : ℚ) : ℚ := if v < lo then lo else if v > hi then hi else v

/-- `axis_value_like_gilrs` (backend.c lines 628-655), with doubles embedded
as `ℚ`.  The C code applies the +1/+1 centering adjustment when
`range_i64 <= INT_MAX && range_i64 >= 0` and then `range_i64 % 2 == 1`
(C truncated `%` agrees with Lean `%` on the nonnegative operands the
guard allows, so the two nested `if`s become one conjunction).  The single
C `if` updates `range` and `val` together, embedded as one pair.  Every
equation proved about this embedding at a concrete input below involves
only IEEE-754-exact double operations at that input. -/
def axis_value_like_gilrs (v minv maxv : Int) (invert_y : Bool) : ℚ :=
  if maxv = minv then 0
  else
    let range_i64 : Int := maxv - minv
    let val_i64 : Int := v - minv
    let rv : ℚ × ℚ :=
      if range_i64 ≤ 2147483647 ∧ 0 ≤ range_i64 ∧ range_i64 % 2 = 1 then
        ((range_i64 : ℚ) + 1, (val_i64 : ℚ) + 1)
      else ((range_i64 : ℚ), (val_i64 : ℚ))
    if rv.1 = 0 then 0
    else
      let out := rv.2 / rv.1 * 2 - 1
      let out2 := if invert_y = true ∧ out ≠ 0 then -out else out
      clamp_f64 out2 (-1) 1

/-- Counterexample to C2: for reported range `[0,9]` (range size 10, even)
the claim says the unadjusted formula `(v-min)/(max-min)*2-1` is used, but
the code applies the +1/+1 adjustment there (it keys on `max-min = 9`
being odd, not on the range size): at sample 1 the code yields `-3/5`
while the unadjusted formula yields `-7/9`. -/
theorem axis_value_odd_size_counterexample :
    axis_value_like_gilrs 1 0 9 false = -(3/5) ∧
    clamp_f64 (((1 : ℚ) - 0) / ((9 : ℚ) - 0) * 2 - 1) (-1) 1 = -(7/9) ∧
    axis_value_like_gilrs 1 0 9 false ≠
      clamp_f64 (((1 : ℚ) - 0) / ((9 : ℚ) - 0) * 2 - 1) (-1) 1 := by
  refine ⟨?_, ?_, ?_⟩ <;> norm_num [axis_value_like_gilrs, clamp_f64]

/-- C2 (amended): the +1/+1 adjustment is applied exactly when the
difference `max - min` is odd (equivalently, when the count of
representable values `max - min + 1` is even) and `0 ≤ max - min ≤
2^31 - 1`; range `[0,8]` uses the unadjusted formula (sample 4 still
decodes to exactly 0) and range `[0,9]` uses the adjusted formula
(sample 4 decodes to exactly 0 via the adjustment). -/
theorem axis_value_adjustment_amended (v minv maxv : Int)
    (hne : maxv ≠ minv) (h0 : 0 ≤ maxv - minv) (hbound : maxv - minv ≤ 2147483647) :
    ((maxv - minv) % 2 = 1 →
      axis_value_like_gilrs v minv maxv false =
        clamp_f64 (((v : ℚ) - (minv : ℚ) + 1) / ((maxv : ℚ) - (minv : ℚ) + 1) * 2 - 1)
          (-1) 1) ∧
    ((maxv - minv) % 2 = 0 →
      axis_value_like_gilrs v minv maxv false =
        clamp_f64 (((v : ℚ) - (minv : ℚ)) / ((maxv : ℚ) - (minv : ℚ)) * 2 - 1)
          (-1) 1) ∧
    axis_value_like_gilrs 4 0 8 false = 0 ∧
    axis_value_like_gilrs 4 0 9 false = 0 := by
  refine ⟨?_, ?_, ?_, ?_⟩
  · intro hodd
    have hcond : maxv - minv ≤ 2147483647 ∧ 0 ≤ maxv - minv ∧ (maxv - minv) % 2 = 1 :=
      ⟨hbound, h0, hodd⟩
    have hr0 : ((maxv - minv : Int) : ℚ) + 1 ≠ 0 := by
      have hge : (0 : ℚ) ≤ ((maxv - minv : Int) : ℚ) := by exact_mod_cast h0
      intro hc
      nlinarith
    simp only [axis_value_like_gilrs, if_neg hne, if_pos hcond, if_neg hr0,
      Bool.false_eq_true, false_and, if_false]
    congr 1
    push_cast
    ring
  · intro heven
    have hcond : ¬ (maxv - minv ≤ 2147483647 ∧ 0 ≤ maxv - minv ∧ (maxv - minv) % 2 = 1) := by
      rintro ⟨-, -, hc⟩
      omega
    have hr0 : ((maxv - minv : Int) : ℚ) ≠ 0 := by
      have : (maxv - minv : Int) ≠ 0 := by omega
      exact_mod_cast this
    simp only [axis_value_like_gilrs, if_neg hne, if_neg hcond, if_neg hr0,
      Bool.false_eq_true, false_and, if_false]
    congr 1
    push_cast
    ring
  · norm_num [axis_value_like_gilrs, clamp_f64]
  · norm_num [axis_value_like_gilrs, clamp_f64]

/-- Witness for the amended C2 at range `[0,8]`, sample 4. -/
theorem axis_value_adjustment_amended_witness :
    axis_value_like_gilrs 4 0 8 false =
      clamp_f64 (((4 : ℚ) - (0 : ℚ)) / ((8 : ℚ) - (0 : ℚ)) * 2 - 1) (-1) 1 :=
  (axis_value_adjustment_amended 4 0 8 (by decide) (by decide) (by decide)).2.1 (by decide)

/-- Linux `input-event-codes.h` hat-axis constants used by the decoder. -/
def ABS_HAT0X : Nat := 16

/-- Second hat-axis constant, `ABS_HAT0Y = 0x11`. -/
def ABS_HAT0Y : Nat := 17

/-- `norm_linux_abs` (backend.c lines 1348-1366): hat axes map to
`{-1,0,1}`; every other axis is treated as signed-16-bit centered,
clamped to `[-32768, 32767]` and divided by `32767.0`; the device's
reported logical range is ignored.  Doubles embedded as `ℚ`; all integer
values in `[-32768, 32767]` and their quotients by 32767 are handled
exactly by IEEE-754 division up to one correctly-rounded operation, and
the order facts proved below are preserved by that rounding. -/
def norm_linux_abs (v : Int) (code : Nat) : ℚ :=
  if code = ABS_HAT0X ∨ code = ABS_HAT0Y then
    if v < 0 then -1 else if v > 0 then 1 else 0
  else
    let dv : ℚ := (v : ℚ)
    let dv1 := if dv < -32768 then -32768 else dv
    let dv2 := if dv1 > 32767 then 32767 else dv1
    dv2 / 32767

/-- `norm_i16` (backend.c lines 1912-1917): Windows stick normalization,
with `-32768` special-cased to exactly `-1`. -/
def norm_i16 (v : Int) : ℚ := if v = -32768 then -1 else (v : ℚ) / 32767

/-- `norm_u8` (backend.c lines 1919-1921): Windows trigger normalization. -/
def norm_u8 (v : Nat) : ℚ := (v : ℚ) / 255

/-- Counterexample to C4: on the kernel-node platform a stick sample of
`-32768` (code 0 = `ABS_X`) decodes to `-32768/32767`, which is strictly
below `-1`, so decoded axis values do not always lie in `[-1,1]`; and a
sample equal to a reported logical minimum need not decode to `-1`: the
decoder ignores the reported range, e.g. sample 0 on an axis reported
with range `[0,255]` decodes to `0`. -/
theorem norm_linux_out_of_range_counterexample :
    norm_linux_abs (-32768) 0 < -1 ∧ norm_linux_abs 0 2 = 0 := by
  constructor
  · have h : norm_linux_abs (-32768) 0 = (-32768 : ℚ)/32767 := by
      norm_num [norm_linux_abs, ABS_HAT0X, ABS_HAT0Y]
    rw [h, div_lt_iff₀ (by norm_num : (0 : ℚ) < 32767)]
    norm_num
  · norm_num [norm_linux_abs, ABS_HAT0X, ABS_HAT0Y]

private theorem div32767_bounds {x : ℚ} (h1 : -32768 ≤ x) (h2 : x ≤ 32767) :
    -(32768/32767 : ℚ) ≤ x / 32767 ∧ x / 32767 ≤ 1 := by
  constructor
  · have h3 : (-32768 : ℚ)/32767 ≤ x / 32767 := by gcongr
    have h4 : -(32768/32767 : ℚ) = (-32768 : ℚ)/32767 := by ring
    linarith
  · have h3 : x / 32767 ≤ (32767 : ℚ)/32767 := by gcongr
    have h4 : ((32767 : ℚ))/32767 = 1 := by norm_num
    linarith

/-- C4 (amended): the values the kernel-node decoder pushes for hat axes
lie in `{-1,0,1}` and for all other axes in `[-32768/32767, 1]` — within
`[-1,1]` except for the single sample `-32768`, and with the reported
logical range ignored (so a sample at the reported min need not decode
to `-1`); the fixed-slot decoder's stick values lie in `[-1,1]` with the
int16 extremes decoding exactly to `-1` and `1`, and its trigger values
lie in `[0,1]` with the u8 extremes decoding exactly to `0` and `1`. -/
theorem norm_value_ranges_amended :
    (∀ (v : Int) (code : Nat), code = ABS_HAT0X ∨ code = ABS_HAT0Y →
      norm_linux_abs v code = -1 ∨ norm_linux_abs v code = 0 ∨
        norm_linux_abs v code = 1) ∧
    (∀ (v : Int) (code : Nat), ¬(code = ABS_HAT0X ∨ code = ABS_HAT0Y) →
      -(32768/32767 : ℚ) ≤ norm_linux_abs v code ∧ norm_linux_abs v code ≤ 1) ∧
    (∀ v : Int, -32768 ≤ v → v ≤ 32767 → -1 ≤ norm_i16 v ∧ norm_i16 v ≤ 1) ∧
    norm_i16 (-32768) = -1 ∧ norm_i16 32767 = 1 ∧
    (∀ v : Nat, v ≤ 255 → 0 ≤ norm_u8 v ∧ norm_u8 v ≤ 1) ∧
    norm_u8 0 = 0 ∧ norm_u8 255 = 1 := by
  refine ⟨?_, ?_, ?_, by norm_num [norm_i16], by norm_num [norm_i16], ?_,
    by norm_num [norm_u8], by norm_num [norm_u8]⟩
  · intro v code hc
    simp only [norm_linux_abs, if_pos hc]
    split_ifs <;> simp
  · intro v code hc
    simp only [norm_linux_abs, if_neg hc]
    apply div32767_bounds <;> split_ifs with h1 h2 <;> try linarith
  · intro v hlo hhi
    by_cases h : v = -32768
    · simp [norm_i16, h]
    · have hlo2 : (-32767 : ℚ) ≤ (v : ℚ) := by
        exact_mod_cast (by omega : (-32767 : Int) ≤ v)
      have hhi2 : (v : ℚ) ≤ 32767 := by exact_mod_cast hhi
      simp only [norm_i16, if_neg h]
      constructor
      · have h3 : (-32767 : ℚ)/32767 ≤ (v : ℚ)/32767 := by gcongr
        have h4 : (-32767 : ℚ)/32767 = -1 := by norm_num
        linarith
      · have h3 : (v : ℚ)/32767 ≤ (32767 : ℚ)/32767 := by gcongr
        have h4 : ((32767 : ℚ))/32767 = 1 := by norm_num
        linarith
  · intro v hv
    have h0 : (0 : ℚ) ≤ (v : ℚ) := by exact_mod_cast Nat.zero_le v
    have h1 : (v : ℚ) ≤ 255 := by exact_mod_cast hv
    simp only [norm_u8]
    constructor
    · positivity
    · have h3 : (v : ℚ)/255 ≤ (255 : ℚ)/255 := by gcongr
      have h4 : ((255 : ℚ))/255 = 1 := by norm_num
      linarith

/-- Witness for the amended C4 at concrete samples. -/
theorem norm_value_ranges_amended_witness :
    (-(32768/32767 : ℚ) ≤ norm_linux_abs 5 0 ∧ norm_linux_abs 5 0 ≤ 1) ∧
    (-1 ≤ norm_i16 1000 ∧ norm_i16 1000 ≤ 1) ∧
    (0 ≤ norm_u8 128 ∧ norm_u8 128 ≤ 1) :=
  ⟨norm_value_ranges_amended.2.1 5 0 (by decide),
   norm_value_ranges_amended.2.2.1 1000 (by decide) (by decide),
   norm_value_ranges_amended.2.2.2.2.2.1 128 (by decide)⟩

/-- `idx_by_id_u32` (backend.c lines 2232-2239): first index of `id` in a
device-id array, or none (C returns `-1`). -/
def idx_by_id_u32 (ids : List Nat) (id : Nat) : Option Nat :=
  ids.findIdx? (fun x => x == id)

/-- Parallel per-slot metadata arrays of the kernel-node backend
(`fds`/`fd_ids`/`names`/`uuids`/`vendors`/`products`/`ff_supported` in
`moon_gamepad_backend_t`), indexed up to `fds_len`. -/
structure LinuxMeta where
  fd_ids : List Nat
  names : List String
  uuids : List String
  vendors : List Int
  products : List Int
  linux_ff_supported : List Bool

/-- `moon_gamepad_backend_name`, `__linux__` branch (backend.c lines
2241-2268): empty string for a negative or unregistered id. -/
def linux_backend_name (b : LinuxMeta) (id : Int) : String :=
  if id < 0 then ""
  else
    match idx_by_id_u32 b.fd_ids id.toNat with
    | none => ""
    | some i => b.names.getD i ""

/-- `moon_gamepad_backend_uuid_simple`, `__linux__` branch (lines 2270-2297). -/
def linux_backend_uuid_simple (b : LinuxMeta) (id : Int) : String :=
  if id < 0 then ""
  else
    match idx_by_id_u32 b.fd_ids id.toNat with
    | none => ""
    | some i => b.uuids.getD i ""

/-- `moon_gamepad_backend_vendor_id`, `__linux__` branch (lines 2299-2321). -/
def linux_backend_vendor_id (b : LinuxMeta) (id : Int) : Int :=
  if id < 0 then -1
  else
    match idx_by_id_u32 b.fd_ids id.toNat with
    | none => -1
    | some i => b.vendors.getD i (-1)

/-- `moon_gamepad_backend_product_id`, `__linux__` branch (lines 2323-2345). -/
def linux_backend_product_id (b : LinuxMeta) (id : Int) : Int :=
  if id < 0 then -1
  else
    match idx_by_id_u32 b.fd_ids id.toNat with
    | none => -1
    | some i => b.products.getD i (-1)

/-- `moon_gamepad_backend_is_ff_supported`, `__linux__` branch (lines
2347-2368). -/
def linux_backend_is_ff_supported (b : LinuxMeta) (id : Int) : Bool :=
  if id < 0 then false
  else
    match idx_by_id_u32 b.fd_ids id.toNat with
    | none => false
    | some i => b.linux_ff_supported.getD i false

/-- Per-slot metadata of the callback-driven backend, including the
capability lists collected by `mac_collect_device_caps`:
`axes_codes`, `buttons_codes` and the `(code, min, max)` table. -/
structure MacMeta where
  device_ids : List Nat
  names : List String
  uuids : List String
  vendors : List Int
  products : List Int
  axes : List (List Int)
  buttons : List (List Int)
  axis_info : List (List (Int × Int × Int))

/-- `moon_gamepad_backend_name`, `__APPLE__` branch (lines 2241-2268). -/
def mac_backend_name (b : MacMeta) (id : Int) : String :=
  if id < 0 then ""
  else
    match idx_by_id_u32 b.device_ids id.toNat with
    | none => ""
    | some i => b.names.getD i ""

/-- `moon_gamepad_backend_uuid_simple`, `__APPLE__` branch (lines 2270-2297). -/
def mac_backend_uuid_simple (b : MacMeta) (id : Int) : String :=
  if id < 0 then ""
  else
    match idx_by_id_u32 b.device_ids id.toNat with
    | none => ""
    | some i => b.uuids.getD i ""

/-- `moon_gamepad_backend_vendor_id`, `__APPLE__` branch (lines 2299-2321). -/
def mac_backend_vendor_id (b : MacMeta) (id : Int) : Int :=
  if id < 0 then -1
  else
    match idx_by_id_u32 b.device_ids id.toNat with
    | none => -1
    | some i => b.vendors.getD i (-1)

/-- `moon_gamepad_backend_product_id`, `__APPLE__` branch (lines 2323-2345). -/
def mac_backend_product_id (b : MacMeta) (id : Int) : Int :=
  if id < 0 then -1
  else
    match idx_by_id_u32 b.device_ids id.toNat with
    | none => -1
    | some i => b.products.getD i (-1)

/-- `moon_gamepad_backend_axes_bin`, `__APPLE__` branch (lines 2370-2395):
empty bytes (decoded by the consumer as the empty list) for an unknown
id. -/
def mac_backend_axes (b : MacMeta) (id : Int) : List Int :=
  if id < 0 then []
  else
    match idx_by_id_u32 b.device_ids id.toNat with
    | none => []
    | some i => b.axes.getD i []

/-- `moon_gamepad_backend_buttons_bin`, `__APPLE__` branch (lines 2397-2422). -/
def mac_backend_buttons (b : MacMeta) (id : Int) : List Int :=
  if id < 0 then []
  else
    match idx_by_id_u32 b.device_ids id.toNat with
    | none => []
    | some i => b.buttons.getD i []

/-- `moon_gamepad_backend_axis_info_bin` (lines 2424-2460): `present = 0`
(decoded as `none`) for an unknown id or an unrecorded code. -/
def mac_backend_axis_info (b : MacMeta) (id : Int) (code : Int) : Option (Int × Int) :=
  if id < 0 then none
  else
    match idx_by_id_u32 b.device_ids id.toNat with
    | none => none
    | some i =>
      (b.axis_info.getD i []).findSome?
        (fun e => if e.1 = code then some (e.2.1, e.2.2) else none)

/-- Static per-slot names written by `windows_backend_init` (backend.c
lines 1945-1962) via `snprintf "XInput Gamepad %d"`, unrolled for the
four fixed slots.  They are filled at init time and never depend on
whether a controller is connected. -/
def windows_init_names : List String :=
  ["XInput Gamepad 0", "XInput Gamepad 1", "XInput Gamepad 2", "XInput Gamepad 3"]

/-- `moon_gamepad_backend_name`, `_WIN32` branch (lines 2258-2262). -/
def windows_backend_name (id : Int) : String :=
  if id < 0 then "" else if 4 ≤ id then "" else windows_init_names.getD id.toNat ""

/-- `moon_gamepad_backend_uuid_simple`, `_WIN32` branch (lines 2287-2291):
every in-range slot reports the static identity string `"xinput"`. -/
def windows_backend_uuid_simple (id : Int) : String :=
  if id < 0 then "" else if 4 ≤ id then "" else "xinput"

/-- `moon_gamepad_backend_vendor_id` has no `_WIN32` branch: the fixed-slot
build always answers `-1`. -/
def windows_backend_vendor_id (_ : Int) : Int := -1

/-- `moon_gamepad_backend_product_id` likewise answers `-1` on the
fixed-slot build. -/
def windows_backend_product_id (_ : Int) : Int := -1

/-- `moon_gamepad_backend_is_ff_supported`, `_WIN32` branch (lines
2358-2362): for any in-range slot it reports whether the XInput DLL
loaded, regardless of connection state. -/
def windows_backend_is_ff_supported (xinput_ok : Bool) (id : Int) : Bool :=
  if id < 0 then false else if 4 ≤ id then false else xinput_ok

private theorem findIdx?_none_aux (p : Nat → Bool) (l : List Nat)
    (h : ∀ x ∈ l, p x = false) : ∀ i : Nat, List.findIdx? p l i = none := by
  induction l with
  | nil => intro i; rfl
  | cons a as ih =>
    intro i
    have ha : p a = false := h a (List.mem_cons_self a as)
    have hrec := ih (fun x hx => h x (List.mem_cons_of_mem a hx)) (i + 1)
    simp only [List.findIdx?, ha, Bool.false_eq_true, if_false]
    exact hrec

private theorem idx_by_id_none {ids : List Nat} {id : Nat} (h : id ∉ ids) :
    idx_by_id_u32 ids id = none := by
  apply findIdx?_none_aux
  intro x hx
  simp only [beq_eq_false_iff_ne]
  intro hc
  exact h (hc ▸ hx)

/-- Counterexample to C5: on the fixed-slot platform, `Name` for slot id
2 returns the static name "XInput Gamepad 2" — never the empty-string
sentinel — independently of whether a controller was ever connected at
that slot (the query never consults connection state); `UuidSimple`
likewise returns "xinput". -/
theorem metadata_sentinel_counterexample :
    windows_backend_name 2 = "XInput Gamepad 2" ∧ windows_backend_name 2 ≠ "" ∧
    windows_backend_uuid_simple 2 = "xinput" := by
  refine ⟨rfl, ?_, rfl⟩
  decide

/-- C5 (amended): on the callback-driven and kernel-node platforms every
metadata query answers its not-found sentinel (empty string / -1 / empty
list / none) for any id outside the registered device-id table — in
particular for any id never connected — and, being read-only, answers it
identically on every call; on the fixed-slot platform the same holds for
ids outside 0..3, while ids 0..3 always return the static slot name and
the "xinput" identity string and report force-feedback support iff the
XInput DLL is available, with `VendorId`/`ProductId` answering -1 for
every id. -/
theorem metadata_sentinels_amended :
    (∀ (b : LinuxMeta) (id : Int), (id < 0 ∨ id.toNat ∉ b.fd_ids) →
      linux_backend_name b id = "" ∧ linux_backend_uuid_simple b id = "" ∧
      linux_backend_vendor_id b id = -1 ∧ linux_backend_product_id b id = -1 ∧
      linux_backend_is_ff_supported b id = false) ∧
    (∀ (b : MacMeta) (id : Int), (id < 0 ∨ id.toNat ∉ b.device_ids) →
      mac_backend_name b id = "" ∧ mac_backend_uuid_simple b id = "" ∧
      mac_backend_vendor_id b id = -1 ∧ mac_backend_product_id b id = -1 ∧
      mac_backend_axes b id = [] ∧ mac_backend_buttons b id = [] ∧
      ∀ code, mac_backend_axis_info b id code = none) ∧
    (∀ id : Int, id < 0 ∨ 4 ≤ id →
      windows_backend_name id = "" ∧ windows_backend_uuid_simple id = "" ∧
      ∀ ok, windows_backend_is_ff_supported ok id = false) ∧
    (∀ id : Int, windows_backend_vendor_id id = -1 ∧
      windows_backend_product_id id = -1) := by
  refine ⟨?_, ?_, ?_, fun id => ⟨rfl, rfl⟩⟩
  · intro b id h
    by_cases hneg : id < 0
    · simp [linux_backend_name, linux_backend_uuid_simple, linux_backend_vendor_id,
        linux_backend_product_id, linux_backend_is_ff_supported, hneg]
    · have hmem : id.toNat ∉ b.fd_ids := h.resolve_left hneg
      simp [linux_backend_name, linux_backend_uuid_simple, linux_backend_vendor_id,
        linux_backend_product_id, linux_backend_is_ff_supported, hneg,
        idx_by_id_none hmem]
  · intro b id h
    by_cases hneg : id < 0
    · simp [mac_backend_name, mac_backend_uuid_simple, mac_backend_vendor_id,
        mac_backend_product_id, mac_backend_axes, mac_backend_buttons,
        mac_backend_axis_info, hneg]
    · have hmem : id.toNat ∉ b.device_ids := h.resolve_left hneg
      simp [mac_backend_name, mac_backend_uuid_simple, mac_backend_vendor_id,
        mac_backend_product_id, mac_backend_axes, mac_backend_buttons,
        mac_backend_axis_info, hneg, idx_by_id_none hmem]
  · intro id h
    by_cases hneg : id < 0
    · simp [windows_backend_name, windows_backend_uuid_simple,
        windows_backend_is_ff_supported, hneg]
    · have h4 : (4 : Int) ≤ id := h.resolve_left hneg
      simp [windows_backend_name, windows_backend_uuid_simple,
        windows_backend_is_ff_supported, hneg, h4]

/-- Witness for the amended C5 at an empty registry and id 7. -/
theorem metadata_sentinels_amended_witness :
    linux_backend_name ⟨[], [], [], [], [], []⟩ 7 = "" ∧
    mac_backend_name ⟨[], [], [], [], [], [], [], []⟩ 7 = "" ∧
    windows_backend_name 7 = "" :=
  ⟨(metadata_sentinels_amended.1 ⟨[], [], [], [], [], []⟩ 7 (by simp)).1,
   (metadata_sentinels_amended.2.1 ⟨[], [], [], [], [], [], [], []⟩ 7 (by simp)).1,
   (metadata_sentinels_amended.2.2.1 7 (by simp)).1⟩

/-- Per-slot force-feedback state of the kernel-node backend: whether the
device node is open (`fds[idx] >= 0`), opened read-write (`rw`),
rumble-capable (`ff_supported`), the kernel effect id (`ff_id`, `-1` when
none) and the absolute expiry timestamp (`ff_until_ms`, `0` when none). -/
structure LinuxSlotFF where
  fd_open : Bool
  rw : Bool
  ff_supported : Bool
  ff_id : Int
  ff_until_ms : Int
deriving Repr, DecidableEq

/-- Hardware commands the rumble controller issues to the device node:
the `EV_FF value 0` stop write, the `EVIOCSFF` effect upload, and the
`EV_FF value 1` play write. -/
inductive LinuxFFCmd
  | writeStop (effect_id : Int)
  | uploadEffect (strong weak : Nat) (length_ms : Int)
  | writePlay (effect_id : Int)
deriving Repr, DecidableEq

/-- `linux_ff_stop_idx` (backend.c lines 1427-1445): without write access,
rumble capability or a live effect it only clears the expiry; otherwise
it also writes the stop command. -/
def linux_ff_stop_idx (s : LinuxSlotFF) : LinuxSlotFF × List LinuxFFCmd :=
  if s.fd_open = false then (s, [])
  else if s.rw = false ∨ s.ff_supported = false ∨ s.ff_id < 0 then
    ({ s with ff_until_ms := 0 }, [])
  else ({ s with ff_until_ms := 0 }, [.writeStop s.ff_id])

/-- `linux_ff_set_rumble_idx` (backend.c lines 1477-1517).  The `ioctl`
effect upload and the play `write` are modeled as succeeding; when no
effect exists yet the kernel-assigned effect id is the parameter
`alloc_id`.  Duration is clamped to `0xFFFF` and the expiry set to
`now + duration`. -/
def linux_ff_set_rumble_idx (s : LinuxSlotFF) (strong weak : Nat)
    (duration_ms now alloc_id : Int) : Bool × LinuxSlotFF × List LinuxFFCmd :=
  if s.fd_open = false then (false, s, [])
  else if s.rw = false ∨ s.ff_supported = false then (false, s, [])
  else if duration_ms ≤ 0 ∨ (strong = 0 ∧ weak = 0) then
    let r := linux_ff_stop_idx s
    (true, r.1, r.2)
  else
    let d := if duration_ms > 65535 then 65535 else duration_ms
    let eid := if s.ff_id ≥ 0 then s.ff_id else alloc_id
    (true, { s with ff_id := eid, ff_until_ms := now + d },
     [.uploadEffect strong weak d, .writePlay eid])

/-- `linux_ff_tick` for one slot (backend.c lines 1465-1475): on a poll at
time `t`, stop the effect once `t` has reached a nonzero expiry. -/
def linux_ff_tick_slot (s : LinuxSlotFF) (t : Int) : LinuxSlotFF × List LinuxFFCmd :=
  if s.ff_until_ms ≠ 0 ∧ t ≥ s.ff_until_ms then linux_ff_stop_idx s else (s, [])

/-- Repeated per-poll ticks over a list of poll times, collecting the
commands issued at each tick. -/
def linux_ff_tick_run (s : LinuxSlotFF) :
    List Int → LinuxSlotFF × List (List LinuxFFCmd)
  | [] => (s, [])
  | t :: ts =>
    let r1 := linux_ff_tick_slot s t
    let r2 := linux_ff_tick_run r1.1 ts
    (r2.1, r1.2 :: r2.2)

/-- Per-slot rumble state of the fixed-slot backend (`win_connected`,
`win_rumble_l`, `win_rumble_r`, `win_rumble_until_ms`). -/
structure WinRumbleSlot where
  connected : Bool
  rumble_l : Nat
  rumble_r : Nat
  until_ms : Int
deriving Repr, DecidableEq

/-- `windows_rumble_set_idx` (backend.c lines 1884-1910); the result list
records the motor levels passed to `XInputSetState` through
`windows_rumble_apply`, and `xinput_ok` is whether the XInput DLL and its
set-state entry point loaded. -/
def windows_rumble_set_idx (xinput_ok : Bool) (s : WinRumbleSlot) (l r : Nat)
    (duration_ms now : Int) : Bool × WinRumbleSlot × List (Nat × Nat) :=
  if xinput_ok = false then (false, s, [])
  else if s.connected = false then (false, s, [])
  else if duration_ms ≤ 0 ∨ (l = 0 ∧ r = 0) then
    (true, { s with rumble_l := 0, rumble_r := 0, until_ms := 0 }, [(0, 0)])
  else
    let d := if duration_ms > 600000 then 600000 else duration_ms
    (true, { s with rumble_l := l, rumble_r := r, until_ms := now + d }, [(l, r)])

/-- C6: on a connected, rumble-capable, write-opened device, `SetRumble`
with a nonpositive duration or both amplitudes zero stops the active
effect immediately (clearing the expiry, and writing the stop command
whenever an effect handle exists) and returns success; on a device
lacking rumble capability or write access (kernel-node) or with XInput
unavailable or the slot disconnected (fixed-slot), it is a no-op
returning failure. -/
theorem set_rumble_stop_and_failure :
    (∀ (s : LinuxSlotFF) (strong weak : Nat) (dur now alloc : Int),
      s.fd_open = true → s.rw = true → s.ff_supported = true →
      (dur ≤ 0 ∨ (strong = 0 ∧ weak = 0)) →
      (linux_ff_set_rumble_idx s strong weak dur now alloc).1 = true ∧
      (linux_ff_set_rumble_idx s strong weak dur now alloc).2.1.ff_until_ms = 0 ∧
      (0 ≤ s.ff_id →
        (linux_ff_set_rumble_idx s strong weak dur now alloc).2.2 =
          [LinuxFFCmd.writeStop s.ff_id])) ∧
    (∀ (s : LinuxSlotFF) (strong weak : Nat) (dur now alloc : Int),
      s.fd_open = true → (s.rw = false ∨ s.ff_supported = false) →
      linux_ff_set_rumble_idx s strong weak dur now alloc = (false, s, [])) ∧
    (∀ (s : WinRumbleSlot) (l r : Nat) (dur now : Int),
      s.connected = true → (dur ≤ 0 ∨ (l = 0 ∧ r = 0)) →
      windows_rumble_set_idx true s l r dur now =
        (true, { s with rumble_l := 0, rumble_r := 0, until_ms := 0 }, [(0, 0)])) ∧
    (∀ (s : WinRumbleSlot) (l r : Nat) (dur now : Int) (ok : Bool),
      (ok = false ∨ s.connected = false) →
      windows_rumble_set_idx ok s l r dur now = (false, s, [])) := by
  refine ⟨?_, ?_, ?_, ?_⟩
  · intro s strong weak dur now alloc hopen hrw hff hzero
    have hflags : ¬(s.rw = false ∨ s.ff_supported = false) := by simp [hrw, hff]
    have hopen2 : ¬(s.fd_open = false) := by simp [hopen]
    simp only [linux_ff_set_rumble_idx, if_neg hopen2, if_neg hflags, if_pos hzero]
    by_cases hid : s.ff_id < 0
    · have : ¬ (0 : Int) ≤ s.ff_id := by omega
      simp [linux_ff_stop_idx, hopen2, hflags, hid, this]
    · have hstop : linux_ff_stop_idx s =
          ({ s with ff_until_ms := 0 }, [LinuxFFCmd.writeStop s.ff_id]) := by
        simp [linux_ff_stop_idx, hopen2, hrw, hff, hid]
      simp [hstop]
  · intro s strong weak dur now alloc hopen hflags
    have hopen2 : ¬(s.fd_open = false) := by simp [hopen]
    simp [linux_ff_set_rumble_idx, if_neg hopen2, hflags]
  · intro s l r dur now hconn hzero
    have hc : ¬(s.connected = false) := by simp [hconn]
    simp [windows_rumble_set_idx, hc, hzero]
  · intro s l r dur now ok hfail
    rcases hfail with h | h <;> simp [windows_rumble_set_idx, h]

/-- Witness for C6 at concrete slots. -/
theorem set_rumble_stop_and_failure_witness :
    (linux_ff_set_rumble_idx ⟨true, true, true, 3, 500⟩ 0 0 10 1000 7).1 = true ∧
    linux_ff_set_rumble_idx ⟨true, false, true, 3, 500⟩ 200 0 10 1000 7 =
      (false, ⟨true, false, true, 3, 500⟩, []) ∧
    windows_rumble_set_idx false ⟨true, 1, 1, 500⟩ 200 0 10 1000 =
      (false, ⟨true, 1, 1, 500⟩, []) :=
  ⟨(set_rumble_stop_and_failure.1 ⟨true, true, true, 3, 500⟩ 0 0 10 1000 7
      rfl rfl rfl (Or.inr ⟨rfl, rfl⟩)).1,
   set_rumble_stop_and_failure.2.1 ⟨true, false, true, 3, 500⟩ 200 0 10 1000 7
     rfl (Or.inl rfl),
   set_rumble_stop_and_failure.2.2.2 ⟨true, 1, 1, 500⟩ 200 0 10 1000 false
     (Or.inl rfl)⟩

private theorem tick_run_of_zero (ts : List Int) :
    ∀ s : LinuxSlotFF, s.ff_until_ms = 0 →
      linux_ff_tick_run s ts = (s, List.replicate ts.length []) := by
  induction ts with
  | nil => intro s _; rfl
  | cons t ts ih =>
    intro s h0
    have hcond : ¬(s.ff_until_ms ≠ 0 ∧ t ≥ s.ff_until_ms) := by simp [h0]
    simp only [linux_ff_tick_run, linux_ff_tick_slot, if_neg hcond]
    simp [ih s h0, List.replicate_succ]

private theorem tick_run_of_lt (ts : List Int) :
    ∀ s : LinuxSlotFF, (∀ t ∈ ts, t < s.ff_until_ms) →
      linux_ff_tick_run s ts = (s, List.replicate ts.length []) := by
  induction ts with
  | nil => intro s _; rfl
  | cons t ts ih =>
    intro s hlt
    have hcond : ¬(s.ff_until_ms ≠ 0 ∧ t ≥ s.ff_until_ms) := by
      rintro ⟨-, hge⟩
      have := hlt t (List.mem_cons_self t ts)
      omega
    simp only [linux_ff_tick_run, linux_ff_tick_slot, if_neg hcond]
    simp [ih s (fun u hu => hlt u (List.mem_cons_of_mem t hu)), List.replicate_succ]

/-- `windows_rumble_tick` for one slot (backend.c lines 1866-1882): a
disconnected slot is skipped; otherwise, once a poll time `t` has
reached a nonzero expiry, the stored motor levels and the expiry are
cleared and `windows_rumble_apply` (lines 1851-1864) passes `(0, 0)` to
`XInputSetState` — silently skipped when the XInput DLL is unavailable
(`xinput_ok = false`). -/
def windows_rumble_tick_slot (xinput_ok : Bool) (s : WinRumbleSlot) (t : Int) :
    WinRumbleSlot × List (Nat × Nat) :=
  if s.connected = false then (s, [])
  else if s.until_ms ≠ 0 ∧ t ≥ s.until_ms then
    ({ s with rumble_l := 0, rumble_r := 0, until_ms := 0 },
     if xinput_ok then [(0, 0)] else [])
  else (s, [])

/-- Repeated per-poll fixed-slot ticks over a list of poll times,
collecting the vibration commands issued at each tick. -/
def windows_rumble_tick_run (xinput_ok : Bool) (s : WinRumbleSlot) :
    List Int → WinRumbleSlot × List (List (Nat × Nat))
  | [] => (s, [])
  | t :: ts =>
    let r1 := windows_rumble_tick_slot xinput_ok s t
    let r2 := windows_rumble_tick_run xinput_ok r1.1 ts
    (r2.1, r1.2 :: r2.2)

private theorem win_tick_run_of_zero (ok : Bool) (ts : List Int) :
    ∀ w : WinRumbleSlot, w.until_ms = 0 →
      windows_rumble_tick_run ok w ts = (w, List.replicate ts.length []) := by
  induction ts with
  | nil => intro w _; rfl
  | cons t ts ih =>
    intro w h0
    have hslot : windows_rumble_tick_slot ok w t = (w, []) := by
      by_cases hc : w.connected = false
      · simp [windows_rumble_tick_slot, hc]
      · have hcond : ¬(w.until_ms ≠ 0 ∧ t ≥ w.until_ms) := by simp [h0]
        simp [windows_rumble_tick_slot, hc, hcond]
    simp only [windows_rumble_tick_run, hslot]
    simp [ih w h0, List.replicate_succ]

private theorem win_tick_run_of_lt (ok : Bool) (ts : List Int) :
    ∀ w : WinRumbleSlot, (∀ t ∈ ts, t < w.until_ms) →
      windows_rumble_tick_run ok w ts = (w, List.replicate ts.length []) := by
  induction ts with
  | nil => intro w _; rfl
  | cons t ts ih =>
    intro w hlt
    have hslot : windows_rumble_tick_slot ok w t = (w, []) := by
      by_cases hc : w.connected = false
      · simp [windows_rumble_tick_slot, hc]
      · have hcond : ¬(w.until_ms ≠ 0 ∧ t ≥ w.until_ms) := by
          rintro ⟨-, hge⟩
          have := hlt t (List.mem_cons_self t ts)
          omega
        simp [windows_rumble_tick_slot, hc, hcond]
    simp only [windows_rumble_tick_run, hslot]
    simp [ih w (fun u hu => hlt u (List.mem_cons_of_mem t hu)), List.replicate_succ]

/-- C7: on both rumble-capable platforms, with an active effect (nonzero
expiry, and on the kernel-node platform a live effect handle, write
access and rumble capability; on the fixed-slot platform a connected
slot), the per-poll tick issues no stop command on polls strictly
before the expiry, issues exactly one stop command on the first poll at
time `≥` the expiry, and clears the expiry there (so later polls issue
nothing); and a successful `SetRumble` with positive in-range duration
records expiry `now + duration` on either platform. -/
theorem rumble_expiry_tick (s : LinuxSlotFF) (e : Int)
    (hopen : s.fd_open = true) (hrw : s.rw = true) (hff : s.ff_supported = true)
    (hid : 0 ≤ s.ff_id) (he : s.ff_until_ms = e) (he0 : e ≠ 0) :
    (∀ ts : List Int, (∀ t ∈ ts, t < e) →
      linux_ff_tick_run s ts = (s, List.replicate ts.length [])) ∧
    (∀ (ts1 : List Int) (t : Int) (ts2 : List Int),
      (∀ u ∈ ts1, u < e) → e ≤ t →
      (linux_ff_tick_run s (ts1 ++ t :: ts2)).2 =
        List.replicate ts1.length [] ++
          [LinuxFFCmd.writeStop s.ff_id] :: List.replicate ts2.length [] ∧
      (linux_ff_tick_run s (ts1 ++ t :: ts2)).1.ff_until_ms = 0) ∧
    (∀ (strong weak : Nat) (dur now alloc : Int), 0 < dur → dur ≤ 65535 →
      ¬(strong = 0 ∧ weak = 0) →
      (linux_ff_set_rumble_idx s strong weak dur now alloc).2.1.ff_until_ms =
        now + dur) ∧
    (∀ (ok : Bool) (w : WinRumbleSlot) (ew : Int) (ts : List Int),
      w.until_ms = ew → (∀ t ∈ ts, t < ew) →
      windows_rumble_tick_run ok w ts = (w, List.replicate ts.length [])) ∧
    (∀ (w : WinRumbleSlot) (ew : Int) (ts1 : List Int) (t : Int) (ts2 : List Int),
      w.connected = true → w.until_ms = ew → ew ≠ 0 →
      (∀ u ∈ ts1, u < ew) → ew ≤ t →
      (windows_rumble_tick_run true w (ts1 ++ t :: ts2)).2 =
        List.replicate ts1.length [] ++
          [(0, 0)] :: List.replicate ts2.length [] ∧
      (windows_rumble_tick_run true w (ts1 ++ t :: ts2)).1.until_ms = 0) ∧
    (∀ (w : WinRumbleSlot) (l r : Nat) (dur now : Int), w.connected = true →
      0 < dur → dur ≤ 600000 → ¬(l = 0 ∧ r = 0) →
      (windows_rumble_set_idx true w l r dur now).2.1.until_ms = now + dur) := by
  have hfire : ∀ t : Int, e ≤ t →
      linux_ff_tick_slot s t =
        ({ s with ff_until_ms := 0 }, [LinuxFFCmd.writeStop s.ff_id]) := by
    intro t hge
    have hcond : s.ff_until_ms ≠ 0 ∧ t ≥ s.ff_until_ms := by
      constructor
      · rw [he]; exact he0
      · rw [he]; exact hge
    have hopen2 : ¬(s.fd_open = false) := by simp [hopen]
    have hflags : ¬(s.rw = false ∨ s.ff_supported = false ∨ s.ff_id < 0) := by
      simp [hrw, hff]
      omega
    simp [linux_ff_tick_slot, if_pos hcond, linux_ff_stop_idx, hopen2, hflags]
  refine ⟨fun ts h => tick_run_of_lt ts s (by rw [he]; exact h), ?_, ?_, ?_, ?_, ?_⟩
  · intro ts1 t ts2 hlt hge
    induction ts1 with
    | nil =>
      simp only [List.nil_append, linux_ff_tick_run, hfire t hge]
      rw [tick_run_of_zero ts2 _ rfl]
      simp
    | cons u us ih =>
      have hu : u < e := hlt u (List.mem_cons_self u us)
      have hcond : ¬(s.ff_until_ms ≠ 0 ∧ u ≥ s.ff_until_ms) := by
        rw [he]
        rintro ⟨-, hge2⟩
        omega
      obtain ⟨ih1, ih2⟩ := ih (fun x hx => hlt x (List.mem_cons_of_mem u hx))
      constructor
      · simp only [List.cons_append, linux_ff_tick_run, linux_ff_tick_slot,
          if_neg hcond]
        simp only [List.length_cons, List.replicate_succ, List.cons_append]
        simp [ih1]
      · simp only [List.cons_append, linux_ff_tick_run, linux_ff_tick_slot,
          if_neg hcond]
        simpa using ih2
  · intro strong weak dur now alloc hpos hle hamp
    have hopen2 : ¬(s.fd_open = false) := by simp [hopen]
    have hflags : ¬(s.rw = false ∨ s.ff_supported = false) := by simp [hrw, hff]
    have hzero : ¬(dur ≤ 0 ∨ (strong = 0 ∧ weak = 0)) := by
      rintro (h | h)
      · omega
      · exact hamp h
    have hclamp : ¬(dur > 65535) := by omega
    simp [linux_ff_set_rumble_idx, if_neg hopen2, if_neg hflags, if_neg hzero, hclamp]
  · intro ok w ew ts hew hlt
    exact win_tick_run_of_lt ok ts w (by rw [hew]; exact hlt)
  · intro w ew ts1 t ts2 hconn hew hew0 hlt hge
    have hc2 : ¬(w.connected = false) := by simp [hconn]
    have hfirew : windows_rumble_tick_slot true w t =
        ({ w with rumble_l := 0, rumble_r := 0, until_ms := 0 }, [(0, 0)]) := by
      have hcond : w.until_ms ≠ 0 ∧ t ≥ w.until_ms := by
        constructor
        · rw [hew]; exact hew0
        · rw [hew]; exact hge
      simp [windows_rumble_tick_slot, hc2, hcond]
    induction ts1 with
    | nil =>
      simp only [List.nil_append, windows_rumble_tick_run, hfirew]
      rw [win_tick_run_of_zero true ts2 _ rfl]
      simp
    | cons u us ih =>
      have hu : u < ew := hlt u (List.mem_cons_self u us)
      have hcond : ¬(w.until_ms ≠ 0 ∧ u ≥ w.until_ms) := by
        rw [hew]
        rintro ⟨-, hge2⟩
        omega
      have hslot : windows_rumble_tick_slot true w u = (w, []) := by
        simp [windows_rumble_tick_slot, hc2, hcond]
      obtain ⟨ih1, ih2⟩ := ih (fun x hx => hlt x (List.mem_cons_of_mem u hx))
      constructor
      · simp only [List.cons_append, windows_rumble_tick_run, hslot]
        simp only [List.length_cons, List.replicate_succ, List.cons_append]
        simp [ih1]
      · simp only [List.cons_append, windows_rumble_tick_run, hslot]
        simpa using ih2
  · intro w l r dur now hconn hpos hle hamp
    have hok : ¬((true : Bool) = false) := by simp
    have hc2 : ¬(w.connected = false) := by simp [hconn]
    have hzero : ¬(dur ≤ 0 ∨ (l = 0 ∧ r = 0)) := by
      rintro (h | h)
      · omega
      · exact hamp h
    have hclamp : ¬(dur > 600000) := by omega
    simp [windows_rumble_set_idx, hok, hc2, hzero, hclamp]

/-- Witness for C7: on each platform, an effect expiring at 50 polled at
times 10, 30, 50, 60 produces the stop exactly at the third poll, plus
the concrete `SetRumble` expiry computations. -/
theorem rumble_expiry_tick_witness :
    (linux_ff_tick_run ⟨true, true, true, 3, 50⟩ ([10, 30] ++ 50 :: [60])).2 =
      List.replicate 2 [] ++
        [LinuxFFCmd.writeStop 3] :: List.replicate 1 [] ∧
    (linux_ff_set_rumble_idx ⟨true, true, true, 3, 50⟩ 65535 65535 50 1000 7).2.1.ff_until_ms =
      1050 ∧
    (windows_rumble_tick_run true ⟨true, 7, 7, 50⟩ ([10, 30] ++ 50 :: [60])).2 =
      List.replicate 2 [] ++ [(0, 0)] :: List.replicate 1 [] ∧
    (windows_rumble_set_idx true ⟨true, 0, 0, 0⟩ 65535 65535 50 1000).2.1.until_ms =
      1050 :=
  ⟨((rumble_expiry_tick ⟨true, true, true, 3, 50⟩ 50 rfl rfl rfl (by decide) rfl
      (by decide)).2.1 [10, 30] 50 [60] (by decide) (by decide)).1,
   (rumble_expiry_tick ⟨true, true, true, 3, 50⟩ 50 rfl rfl rfl (by decide) rfl
      (by decide)).2.2.1 65535 65535 50 1000 7 (by decide) (by decide) (by decide),
   ((rumble_expiry_tick ⟨true, true, true, 3, 50⟩ 50 rfl rfl rfl (by decide) rfl
      (by decide)).2.2.2.2.1 ⟨true, 7, 7, 50⟩ 50 [10, 30] 50 [60] rfl rfl
      (by decide) (by decide) (by decide)).1,
   (rumble_expiry_tick ⟨true, true, true, 3, 50⟩ 50 rfl rfl rfl (by decide) rfl
      (by decide)).2.2.2.2.2 ⟨true, 0, 0, 0⟩ 65535 65535 50 1000 rfl
      (by decide) (by decide) (by decide)⟩

/-- Step-indexed model of the `pthread_cond_wait` loop of
`queue_wait_nonempty` (backend.c lines 243-248).  Time is discretised
into ticks after entry; `sched` lists, for each successive wakeup,
whether the queue is nonempty then (`queue_push` is the only concurrent
mutation while the consumer blocks here, so nonemptiness is what each
`q->len == 0` re-check observes).  A schedule that runs out means no
record ever arrives.  Returns the tick at which the wait returns, `none`
when it blocks forever. -/
def wait_indef : List Bool → Option Nat
  | [] => none
  | b :: rest => if b then some 0 else (wait_indef rest).map (· + 1)

/-- Step-indexed model of the `pthread_cond_timedwait` loop of
`queue_wait_nonempty` (backend.c lines 251-262): as `wait_indef`, but
the wait also returns empty-handed once the absolute deadline
(`timeout_ms` ticks after entry) is reached (`ETIMEDOUT`). -/
def wait_timed : Nat → List Bool → Nat
  | m, [] => m
  | 0, _ :: _ => 0
  | Nat.succ m, b :: rest => if b then 0 else wait_timed m rest + 1

/-- `queue_wait_nonempty` (backend.c lines 233-265) over a discrete
schedule: return immediately when a record is already present or the
timeout is 0; block indefinitely on a negative timeout; otherwise block
up to `timeout_ms` ticks.  Returns the tick at which control returns. -/
def queue_wait_nonempty (timeout_ms : Int) (sched : List Bool) : Option Nat :=
  if sched.getD 0 false = true ∨ timeout_ms = 0 then some 0
  else if timeout_ms < 0 then wait_indef sched
  else some (wait_timed timeout_ms.toNat sched)

private theorem wait_indef_none_iff (sched : List Bool) :
    wait_indef sched = none ↔ ∀ b ∈ sched, b = false := by
  induction sched with
  | nil => simp [wait_indef]
  | cons b rest ih =>
    cases b with
    | true => simp [wait_indef]
    | false =>
      simp only [wait_indef, Bool.false_eq_true, if_false]
      have hmap : ((wait_indef rest).map (· + 1) = none) ↔ wait_indef rest = none := by
        cases wait_indef rest <;> simp
      rw [hmap, ih]
      constructor
      · intro h x hx
        rcases List.mem_cons.mp hx with h1 | h1
        · exact h1
        · exact h x h1
      · intro h x hx
        exact h x (List.mem_cons_of_mem false hx)

private theorem wait_indef_some (sched : List Bool) :
    ∀ t, wait_indef sched = some t →
      sched.getD t false = true ∧ ∀ j < t, sched.getD j false = false := by
  induction sched with
  | nil => intro t h; simp [wait_indef] at h
  | cons b rest ih =>
    intro t h
    by_cases hb : b = true
    · simp [wait_indef, hb] at h
      subst h
      simp [hb]
    · have hb2 : b = false := by simpa using hb
      simp only [wait_indef, hb2, Bool.false_eq_true, if_false] at h
      cases hw : wait_indef rest with
      | none => rw [hw] at h; simp at h
      | some u =>
        rw [hw] at h
        simp at h
        obtain ⟨hu, hprev⟩ := ih u hw
        subst h
        refine ⟨by simpa using hu, ?_⟩
        intro j hj
        cases j with
        | zero => simpa using hb2
        | succ j2 => simpa using hprev j2 (by omega)

private theorem wait_timed_le (m : Nat) (sched : List Bool) : wait_timed m sched ≤ m := by
  induction m generalizing sched with
  | zero => cases sched <;> simp [wait_timed]
  | succ m ih =>
    cases sched with
    | nil => simp [wait_timed]
    | cons b rest =>
      by_cases hb : b = true
      · simp [wait_timed, hb]
      · have hb2 : b = false := by simpa using hb
        simp only [wait_timed, hb2, Bool.false_eq_true, if_false]
        have := ih rest
        omega

private theorem wait_timed_spec (m : Nat) (sched : List Bool) :
    (sched.getD (wait_timed m sched) false = true ∨ wait_timed m sched = m) ∧
    ∀ j < wait_timed m sched, sched.getD j false = false := by
  induction m generalizing sched with
  | zero =>
    cases sched with
    | nil => simp [wait_timed]
    | cons b rest => simp [wait_timed]
  | succ m ih =>
    cases sched with
    | nil => simp [wait_timed]
    | cons b rest =>
      by_cases hb : b = true
      · simp [wait_timed, hb]
      · have hb2 : b = false := by simpa using hb
        simp only [wait_timed, hb2, Bool.false_eq_true, if_false]
        obtain ⟨ih1, ih2⟩ := ih rest
        constructor
        · rcases ih1 with h | h
          · exact Or.inl (by simpa using h)
          · exact Or.inr (by omega)
        · intro j hj
          cases j with
          | zero => simp [hb2]
          | succ j2 => simpa using ih2 j2 (by omega)

/-- C8: over the discrete-wakeup model of the blocking queue wait:
a zero timeout returns immediately at tick 0 on every schedule, exactly
as the non-blocking pop does (and a wait entered with a record present
also returns immediately); a negative timeout blocks forever exactly
when no record ever arrives, and otherwise returns at the first tick
with a record; a positive timeout `m` always returns by tick `m`, at the
first tick with a record when one arrives in time, else exactly at `m`. -/
theorem pop_wait_timeout_semantics :
    (∀ sched : List Bool, queue_wait_nonempty 0 sched = some 0) ∧
    (∀ (sched : List Bool) (timeout : Int), sched.getD 0 false = true →
      queue_wait_nonempty timeout sched = some 0) ∧
    (∀ (sched : List Bool) (timeout : Int), timeout < 0 →
      (queue_wait_nonempty timeout sched = none ↔ ∀ b ∈ sched, b = false) ∧
      (∀ t, queue_wait_nonempty timeout sched = some t →
        sched.getD t false = true ∧ ∀ j < t, sched.getD j false = false)) ∧
    (∀ (sched : List Bool) (timeout : Int), 0 < timeout →
      ∃ t, queue_wait_nonempty timeout sched = some t ∧ (t : Int) ≤ timeout ∧
        (sched.getD t false = true ∨ (t : Int) = timeout) ∧
        ∀ j < t, sched.getD j false = false) := by
  refine ⟨?_, ?_, ?_, ?_⟩
  · intro sched
    simp [queue_wait_nonempty]
  · intro sched timeout h
    simp only [queue_wait_nonempty, if_pos (Or.inl h)]
  · intro sched timeout hneg
    by_cases hhead : sched.getD 0 false = true
    · constructor
      · simp only [queue_wait_nonempty, if_pos (Or.inl hhead)]
        constructor
        · intro h
          simp at h
        · intro h
          cases sched with
          | nil => simp at hhead
          | cons b rest =>
            have : b = false := h b (List.mem_cons_self b rest)
            simp [this] at hhead
      · intro t ht
        simp only [queue_wait_nonempty, if_pos (Or.inl hhead)] at ht
        simp at ht
        subst ht
        exact ⟨hhead, by omega⟩
    · have hcond : ¬(sched.getD 0 false = true ∨ timeout = 0) := by
        rintro (h | h)
        · exact hhead h
        · omega
      simp only [queue_wait_nonempty, if_neg hcond, if_pos hneg]
      exact ⟨wait_indef_none_iff sched, wait_indef_some sched⟩
  · intro sched timeout hpos
    by_cases hhead : sched.getD 0 false = true
    · exact ⟨0, by simp only [queue_wait_nonempty, if_pos (Or.inl hhead)], by omega,
        Or.inl hhead, by omega⟩
    · have hcond : ¬(sched.getD 0 false = true ∨ timeout = 0) := by
        rintro (h | h)
        · exact hhead h
        · omega
      have hnn : ¬ timeout < 0 := by omega
      refine ⟨wait_timed timeout.toNat sched,
        by simp only [queue_wait_nonempty, if_neg hcond, if_neg hnn], ?_, ?_, ?_⟩
      · have h1 := wait_timed_le timeout.toNat sched
        omega
      · rcases (wait_timed_spec timeout.toNat sched).1 with h | h
        · exact Or.inl h
        · refine Or.inr ?_
          rw [h]
          omega
      · exact (wait_timed_spec timeout.toNat sched).2

/-- Witness for C8 at concrete schedules. -/
theorem pop_wait_timeout_semantics_witness :
    queue_wait_nonempty 0 [false, false] = some 0 ∧
    (queue_wait_nonempty (-1) [false, false] = none ↔
      ∀ b ∈ [false, false], b = false) :=
  ⟨pop_wait_timeout_semantics.1 [false, false],
   (pop_wait_timeout_semantics.2.2.1 [false, false] (-1) (by decide)).1⟩

/-- Hotplug operations affecting device-id allocation on the kernel-node
backend: `linux_backend_scan` accepting one new device node (backend.c
lines 1574-1622), and a disconnect removing slot `i` followed by
`linux_compact` (lines 1519-1545). -/
inductive LinuxHotplugOp
  | connect
  | disconnect (i : Nat)

/-- Device-id allocation state of the kernel-node backend: the ids of the
tracked slots (`fd_ids[0..fds_len)`, bounded to 64) and the `next_id`
counter, which no operation ever resets. -/
structure LinuxIdState where
  ids : List Nat
  next_id : Nat

/-- One kernel-node hotplug step; the optional result is the id handed
to a new physical connection (`id = b->next_id++` at line 1579). -/
def linux_hotplug_step (s : LinuxIdState) :
    LinuxHotplugOp → LinuxIdState × Option Nat
  | .connect =>
    if 64 ≤ s.ids.length then (s, none)
    else ({ ids := s.ids ++ [s.next_id], next_id := s.next_id + 1 }, some s.next_id)
  | .disconnect i => ({ ids := s.ids.eraseIdx i, next_id := s.next_id }, none)

/-- Running a sequence of kernel-node hotplug operations, collecting every
id handed out at a connection event. -/
def linux_hotplug_run (s : LinuxIdState) :
    List LinuxHotplugOp → LinuxIdState × List Nat
  | [] => (s, [])
  | op :: ops =>
    let r1 := linux_hotplug_step s op
    let r2 := linux_hotplug_run r1.1 ops
    (r2.1, r1.2.toList ++ r2.2)

/-- Hotplug callbacks affecting device-id allocation on the
callback-driven backend: a match callback carrying the kernel registry
entry id (`device_matching_cb`, backend.c lines 944-1016) and a removal
marking slot `i` disconnected (`device_removal_cb`, lines 1018-1045). -/
inductive MacHotplugOp
  | matched (entry_id : Nat)
  | removed (i : Nat)

/-- Slot state of the callback-driven backend relevant to id allocation:
`(device_id, entry_id, connected)` per slot (slots are never compacted,
bounded to 32), plus the never-reset `next_id` counter. -/
structure MacIdState where
  slots : List (Nat × Nat × Bool)
  next_id : Nat

/-- One callback-driven hotplug step: a match is ignored when a connected
slot already holds the same registry entry id or all 32 slots are
allocated; otherwise a fresh slot gets `device_ids[idx] = b->next_id++`
(line 998).  A removal only clears the connected flag of slot `i`. -/
def mac_hotplug_step (s : MacIdState) : MacHotplugOp → MacIdState × Option Nat
  | .matched e =>
    if s.slots.any (fun p => p.2.2 && (p.2.1 == e)) then (s, none)
    else if 32 ≤ s.slots.length then (s, none)
    else ({ slots := s.slots ++ [(s.next_id, e, true)], next_id := s.next_id + 1 },
          some s.next_id)
  | .removed i =>
    ({ slots := s.slots.set i
         ((s.slots.getD i (0, 0, false)).1, (s.slots.getD i (0, 0, false)).2.1, false),
       next_id := s.next_id }, none)

/-- Running a sequence of callback-driven hotplug callbacks, collecting
every id handed out at a connection event. -/
def mac_hotplug_run (s : MacIdState) :
    List MacHotplugOp → MacIdState × List Nat
  | [] => (s, [])
  | op :: ops =>
    let r1 := mac_hotplug_step s op
    let r2 := mac_hotplug_run r1.1 ops
    (r2.1, r1.2.toList ++ r2.2)

private theorem linux_hotplug_run_fresh (ops : List LinuxHotplugOp) :
    ∀ s : LinuxIdState,
      (∀ x ∈ (linux_hotplug_run s ops).2, s.next_id ≤ x) ∧
      ((linux_hotplug_run s ops).2).Pairwise (· < ·) ∧
      s.next_id ≤ (linux_hotplug_run s ops).1.next_id := by
  induction ops with
  | nil => intro s; exact ⟨by simp [linux_hotplug_run], by simp [linux_hotplug_run], Nat.le_refl _⟩
  | cons op ops ih =>
    intro s
    cases op with
    | connect =>
      by_cases hfull : 64 ≤ s.ids.length
      · have hstep : linux_hotplug_step s .connect = (s, none) := by
          simp [linux_hotplug_step, hfull]
        obtain ⟨ih1, ih2, ih3⟩ := ih s
        simp only [linux_hotplug_run, hstep]
        exact ⟨by simpa using ih1, by simpa using ih2, ih3⟩
      · have hstep : linux_hotplug_step s .connect =
            ({ ids := s.ids ++ [s.next_id], next_id := s.next_id + 1 }, some s.next_id) := by
          simp [linux_hotplug_step, hfull]
        obtain ⟨ih1, ih2, ih3⟩ :=
          ih { ids := s.ids ++ [s.next_id], next_id := s.next_id + 1 }
        have ih1a : ∀ x ∈ (linux_hotplug_run
            { ids := s.ids ++ [s.next_id], next_id := s.next_id + 1 } ops).2,
            s.next_id + 1 ≤ x := ih1
        have ih3a : s.next_id + 1 ≤ (linux_hotplug_run
            { ids := s.ids ++ [s.next_id], next_id := s.next_id + 1 } ops).1.next_id := ih3
        simp only [linux_hotplug_run, hstep, Option.toList_some, List.singleton_append]
        refine ⟨?_, ?_, by omega⟩
        · intro x hx
          rcases List.mem_cons.mp hx with h | h
          · omega
          · have := ih1a x h
            omega
        · refine List.pairwise_cons.mpr ⟨?_, ih2⟩
          intro x hx
          have := ih1a x hx
          omega
    | disconnect i =>
      have hstep : linux_hotplug_step s (.disconnect i) =
          ({ ids := s.ids.eraseIdx i, next_id := s.next_id }, none) := rfl
      obtain ⟨ih1, ih2, ih3⟩ := ih { ids := s.ids.eraseIdx i, next_id := s.next_id }
      simp only [linux_hotplug_run, hstep]
      exact ⟨by simpa using ih1, by simpa using ih2, by simpa using ih3⟩

private theorem mac_hotplug_run_fresh (ops : List MacHotplugOp) :
    ∀ s : MacIdState,
      (∀ x ∈ (mac_hotplug_run s ops).2, s.next_id ≤ x) ∧
      ((mac_hotplug_run s ops).2).Pairwise (· < ·) ∧
      s.next_id ≤ (mac_hotplug_run s ops).1.next_id := by
  induction ops with
  | nil => intro s; exact ⟨by simp [mac_hotplug_run], by simp [mac_hotplug_run], Nat.le_refl _⟩
  | cons op ops ih =>
    intro s
    cases op with
    | matched e =>
      by_cases hdup : s.slots.any (fun p => p.2.2 && (p.2.1 == e)) = true
      · have hstep : mac_hotplug_step s (.matched e) = (s, none) := by
          simp [mac_hotplug_step, hdup]
        obtain ⟨ih1, ih2, ih3⟩ := ih s
        simp only [mac_hotplug_run, hstep]
        exact ⟨by simpa using ih1, by simpa using ih2, ih3⟩
      · by_cases hfull : 32 ≤ s.slots.length
        · have hstep : mac_hotplug_step s (.matched e) = (s, none) := by
            simp only [mac_hotplug_step]
            rw [if_neg hdup, if_pos hfull]
          obtain ⟨ih1, ih2, ih3⟩ := ih s
          simp only [mac_hotplug_run, hstep]
          exact ⟨by simpa using ih1, by simpa using ih2, ih3⟩
        · have hstep : mac_hotplug_step s (.matched e) =
              ({ slots := s.slots ++ [(s.next_id, e, true)], next_id := s.next_id + 1 },
               some s.next_id) := by
            simp only [mac_hotplug_step]
            rw [if_neg hdup, if_neg hfull]
          obtain ⟨ih1, ih2, ih3⟩ :=
            ih { slots := s.slots ++ [(s.next_id, e, true)], next_id := s.next_id + 1 }
          have ih1a : ∀ x ∈ (mac_hotplug_run
              { slots := s.slots ++ [(s.next_id, e, true)],
                next_id := s.next_id + 1 } ops).2,
              s.next_id + 1 ≤ x := ih1
          have ih3a : s.next_id + 1 ≤ (mac_hotplug_run
              { slots := s.slots ++ [(s.next_id, e, true)],
                next_id := s.next_id + 1 } ops).1.next_id := ih3
          simp only [mac_hotplug_run, hstep, Option.toList_some, List.singleton_append]
          refine ⟨?_, ?_, by omega⟩
          · intro x hx
            rcases List.mem_cons.mp hx with h | h
            · omega
            · have := ih1a x h
              omega
          · refine List.pairwise_cons.mpr ⟨?_, ih2⟩
            intro x hx
            have := ih1a x hx
            omega
    | removed i =>
      have hstep : mac_hotplug_step s (.removed i) =
          ({ slots := s.slots.set i
               ((s.slots.getD i (0, 0, false)).1,
                (s.slots.getD i (0, 0, false)).2.1, false),
             next_id := s.next_id }, none) := rfl
      obtain ⟨ih1, ih2, ih3⟩ := ih
        { slots := s.slots.set i
            ((s.slots.getD i (0, 0, false)).1,
             (s.slots.getD i (0, 0, false)).2.1, false),
          next_id := s.next_id }
      simp only [mac_hotplug_run, hstep, Option.toList_none, List.nil_append]
      exact ⟨ih1, ih2, ih3⟩

/-- C9: starting from a fresh backend (`next_id = 0`, empty device table),
every sequence of connect/disconnect (match/removal) events yields a
strictly increasing list of handed-out device ids on both the
kernel-node and the callback-driven backends — the counter is never
reset — and in particular no id is ever handed to two different
connection events. -/
theorem device_id_allocation_monotone :
    (∀ ops : List LinuxHotplugOp,
      ((linux_hotplug_run ⟨[], 0⟩ ops).2).Pairwise (· < ·) ∧
      ((linux_hotplug_run ⟨[], 0⟩ ops).2).Nodup) ∧
    (∀ ops : List MacHotplugOp,
      ((mac_hotplug_run ⟨[], 0⟩ ops).2).Pairwise (· < ·) ∧
      ((mac_hotplug_run ⟨[], 0⟩ ops).2).Nodup) := by
  constructor
  · intro ops
    have h := (linux_hotplug_run_fresh ops ⟨[], 0⟩).2.1
    exact ⟨h, h.imp (fun hlt => Nat.ne_of_lt hlt)⟩
  · intro ops
    have h := (mac_hotplug_run_fresh ops ⟨[], 0⟩).2.1
    exact ⟨h, h.imp (fun hlt => Nat.ne_of_lt hlt)⟩

/-- Logical dpad-up button code from the internal enum (backend.c line 356). -/
def CODE_BTN_DPAD_UP : Nat := 15

/-- Logical dpad-down button code (backend.c line 357). -/
def CODE_BTN_DPAD_DOWN : Nat := 16

/-- Logical dpad-left button code (backend.c line 358). -/
def CODE_BTN_DPAD_LEFT : Nat := 17

/-- Logical dpad-right button code (backend.c line 359). -/
def CODE_BTN_DPAD_RIGHT : Nat := 18

/-- Logical dpad-x axis code (backend.c line 367). -/
def CODE_AXIS_DPADX : Nat := 106

/-- Logical dpad-y axis code (backend.c line 368). -/
def CODE_AXIS_DPADY : Nat := 107

/-- Hat decode of `input_value_cb` (backend.c lines 1100-1132): the raw
hat sample is shifted by the logical min, widened to eighths
(`dpad_value`), and mapped to components `(x, y) ∈ {-1,0,1}²`; `y` is
produced in the platform's deliberately pre-inverted convention. -/
def mac_hat_decode (hat_v hat_min hat_max : Int) : Int × Int :=
  let range := hat_max - hat_min + 1
  let shifted := hat_v - hat_min
  let dpad_value : Int :=
    if range = 4 then shifted * 2 else if range = 8 then shifted else -1
  let x_raw : Int :=
    if 5 ≤ dpad_value ∧ dpad_value ≤ 7 then -1
    else if 1 ≤ dpad_value ∧ dpad_value ≤ 3 then 1
    else 0
  let y_raw : Int :=
    if 3 ≤ dpad_value ∧ dpad_value ≤ 5 then 1
    else if dpad_value = 0 ∨ dpad_value = 1 ∨ dpad_value = 7 then -1
    else 0
  (x_raw, y_raw)

/-- Decoded event shapes of the hat decode step. -/
inductive DecodedEvent
  | buttonPressed (code : Nat)
  | buttonReleased (code : Nat)
  | axisChanged (code : Nat) (value : Int)
deriving Repr, DecidableEq

/-- Modelled from the spec: the managed-language decode layer (the
repository's `.mbt` sources, which are not under `src/`; the C callback
at backend.c lines 1099-1144 emits only the two hat axis samples) diffs
one hat component against the pad's previous value and synthesizes
edge-triggered button events — "a transition away from a non-zero value
emits a Release for the corresponding direction, and a transition to a
non-zero value emits a Press, independently for the horizontal and
vertical components". -/
def hat_component_events (oldv newv : Int) (negCode posCode : Nat) :
    List DecodedEvent :=
  (if oldv ≠ 0 ∧ newv ≠ oldv then
     [DecodedEvent.buttonReleased (if oldv < 0 then negCode else posCode)]
   else []) ++
  (if newv ≠ 0 ∧ newv ≠ oldv then
     [DecodedEvent.buttonPressed (if newv < 0 then negCode else posCode)]
   else [])

/-- Modelled from the spec: one full hat decode step of the managed
layer — dpad button edges for the horizontal then the vertical component
(negative x = left, positive x = right, negative y = up, positive y =
down in the pre-inverted convention), followed by the two axis events,
one per hat axis. -/
def hat_diff_events (oldx oldy newx newy : Int) : List DecodedEvent :=
  hat_component_events oldx newx CODE_BTN_DPAD_LEFT CODE_BTN_DPAD_RIGHT ++
  hat_component_events oldy newy CODE_BTN_DPAD_UP CODE_BTN_DPAD_DOWN ++
  [DecodedEvent.axisChanged CODE_AXIS_DPADX newx,
   DecodedEvent.axisChanged CODE_AXIS_DPADY newy]

/-- C3: a hat sample decoding to `(x = 1, y = 0)` (for example raw value
2 on a hat with logical range `[0,7]`), diffed against previous pad
state `(0, 0)`, yields exactly one `ButtonPressed(DPadRight)`, zero
`ButtonReleased` events and two `AxisChanged` events (one per hat axis),
in that relative order. -/
theorem hat_diff_press_right :
    mac_hat_decode 2 0 7 = (1, 0) ∧
    ∀ v mn mx : Int, mac_hat_decode v mn mx = (1, 0) →
      hat_diff_events 0 0 (mac_hat_decode v mn mx).1 (mac_hat_decode v mn mx).2 =
        [DecodedEvent.buttonPressed CODE_BTN_DPAD_RIGHT,
         DecodedEvent.axisChanged CODE_AXIS_DPADX 1,
         DecodedEvent.axisChanged CODE_AXIS_DPADY 0] := by
  refine ⟨by decide, ?_⟩
  intro v mn mx h
  rw [h]
  decide

/-- Witness for C3 at the concrete hat sample 2 on range `[0,7]`. -/
theorem hat_diff_press_right_witness :
    hat_diff_events 0 0 (mac_hat_decode 2 0 7).1 (mac_hat_decode 2 0 7).2 =
      [DecodedEvent.buttonPressed CODE_BTN_DPAD_RIGHT,
       DecodedEvent.axisChanged CODE_AXIS_DPADX 1,
       DecodedEvent.axisChanged CODE_AXIS_DPADY 0] :=
  hat_diff_press_right.2 2 0 7 (by decide)

end MoonGamepad
